import Mathlib

/-!
Shallow embedding of the commitment / proof layer of a multi-store state
database (`store/commit_info.go` and `store/proof.go`).

Conventions of the embedding:
* Go `[]byte` and `string` values are modelled as `List Nat` (byte strings;
  Go string comparison is byte-lexicographic).
* The cryptographic hash function `H` is an explicit parameter: every claim
  proved here holds for an arbitrary hash function, matching the spec wording
  "for a fixed cryptographic hash H".
* `time.Time` is modelled by its `UnixNano` value (an `Int`), which is the
  only view of the timestamp the code under verification uses.
* Functions of the repository that are only called from the verified files
  (the Merkle tree builder, the varint codec helpers, the map-proof helper)
  are modelled from the spec; each such definition says so in its doc string.
* The external ics23 library is modelled by an abstract interface
  (`ICS23`): the verified code only forwards values to it.
-/

/-- Byte-lexicographic strict order on byte strings, the order Go uses when comparing strings (`sort.Slice` comparator in `GetStoreProof`). -/
def ltBytes : List Nat → List Nat → Bool
  | [], [] => false
  | [], _ :: _ => true
  | _ :: _, [] => false
  | a :: as, b :: bs => if a < b then true else if b < a then false else ltBytes as bs

theorem ltBytes_irrefl (a : List Nat) : ltBytes a a = false := by
  induction a with
  | nil => rfl
  | cons x xs ih => simp [ltBytes, ih]

theorem ltBytes_trans {a b c : List Nat} (h₁ : ltBytes a b = true)
    (h₂ : ltBytes b c = true) : ltBytes a c = true := by
  induction a generalizing b c with
  | nil =>
    cases b with
    | nil => simp [ltBytes] at h₁
    | cons y ys =>
      cases c with
      | nil => simp [ltBytes] at h₂
      | cons z zs => rfl
  | cons x xs ih =>
    cases b with
    | nil => simp [ltBytes] at h₁
    | cons y ys =>
      cases c with
      | nil => simp [ltBytes] at h₂
      | cons z zs =>
        simp only [ltBytes] at h₁ h₂ ⊢
        by_cases hxy : x < y
        · by_cases hyz : y < z
          · simp [show x < z by omega]
          · simp [hyz] at h₂
            simp [show x < z by omega]
        · simp [hxy] at h₁
          by_cases hyz : y < z
          · simp [show x < z by omega]
          · simp [hyz] at h₂
            have hxz : ¬ x < z := by omega
            have hzx : ¬ z < x := by omega
            simp [hxz, hzx]
            exact ih h₁.2 h₂.2

theorem ltBytes_conn {a b : List Nat} (h₁ : ltBytes a b = false)
    (h₂ : ltBytes b a = false) : a = b := by
  induction a generalizing b with
  | nil =>
    cases b with
    | nil => rfl
    | cons y ys => simp [ltBytes] at h₁
  | cons x xs ih =>
    cases b with
    | nil => simp [ltBytes] at h₂
    | cons y ys =>
      simp only [ltBytes] at h₁ h₂
      by_cases hxy : x < y <;> by_cases hyx : y < x <;> simp [hxy, hyx] at h₁ h₂
      have : x = y := by omega
      subst this
      rw [ih h₁ h₂]

theorem ltBytes_asymm {a b : List Nat} (h : ltBytes a b = true) :
    ltBytes b a = false := by
  by_contra hc
  have hba : ltBytes b a = true := by
    cases hx : ltBytes b a with
    | false => exact absurd hx hc
    | true => rfl
  have := ltBytes_trans h hba
  rw [ltBytes_irrefl] at this
  exact Bool.noConfusion this

/-! ## 4.1 Merkle tree builder

`LeafHash` and `ProofFromByteSlices` are repository functions called from
`commit_info.go` but defined outside the files under verification; they are
modelled from the spec (§4.1, RFC-6962-style domain separation). -/

/-- Modelled from the spec: missing repository function `LeafHash`.
`leaf_hash(payload) = H(0x00 ∥ payload)`; `commit_info.go` calls it with
the pair `(name, store_hash)`, i.e. payload `name_bytes ∥ store_hash`. -/
def LeafHash (H : List Nat → List Nat) (key value : List Nat) : List Nat :=
  H (0 :: (key ++ value))

/-- Modelled from the spec: inner node hashing of §4.1,
`inner_hash(left, right) = H(0x01 ∥ left ∥ right)`. -/
def innerHash (H : List Nat → List Nat) (left right : List Nat) : List Nat :=
  H (1 :: (left ++ right))

/-- Largest power of two strictly less than `n` (for `n ≥ 2`), the split
point of the tree construction in §4.1.  `spGo` doubles `k` while `2k < n`;
the fuel argument (`n` at the top call) bounds the iteration. -/
def spGo (n : Nat) : Nat → Nat → Nat
  | 0, k => k
  | fuel + 1, k => if 2 * k < n then spGo n fuel (2 * k) else k

/-- Split point of the Merkle tree over `n` leaves. -/
def splitPoint (n : Nat) : Nat := spGo n n 1

/-- Modelled from the spec: missing repository function
`ProofFromByteSlices` (§4.1).  Given already-hashed leaves and a target
index, returns the root hash and the inclusion path for that index
(sibling root together with its side, `true` = sibling is the right
subtree, ordered from leaf level to root).  If `n = 0` the root is the
empty sentinel; if `n = 1` the root is that leaf.  Otherwise the leaves
split at the largest power of two below `n` and the two subtree roots are
combined with `innerHash`.  The structural `fuel` argument (the list
length at the top call) drives the recursion. -/
def proofAux (H : List Nat → List Nat) :
    Nat → List (List Nat) → Nat → List Nat × List (Bool × List Nat)
  | _, [], _ => ([], [])
  | _, [l], _ => (l, [])
  | 0, _ :: _ :: _, _ => ([], [])
  | fuel + 1, l₀ :: l₁ :: ls, i =>
    let leaves := l₀ :: l₁ :: ls
    let k := splitPoint leaves.length
    let left := leaves.take k
    let right := leaves.drop k
    let lres := proofAux H fuel left i
    let rres := proofAux H fuel right (i - k)
    if i < k then (innerHash H lres.1 rres.1, lres.2 ++ [(true, rres.1)])
    else (innerHash H lres.1 rres.1, rres.2 ++ [(false, lres.1)])

/-- Root hash and inclusion path for `index` over the given leaf hashes. -/
def ProofFromByteSlices (H : List Nat → List Nat) (leaves : List (List Nat))
    (index : Nat) : List Nat × List (Bool × List Nat) :=
  proofAux H leaves.length leaves index

/-! ## Data model (`commit_info.go`) -/

/-- Structure `CommitID` defines the commitment information when a specific store is
committed. -/
structure CommitID where
  Version : Nat
  Hash : List Nat
deriving DecidableEq

/-- Structure `StoreInfo` defines store-specific commit information: a store
name/key together with its commit ID. -/
structure StoreInfo where
  Name : List Nat
  CommitID : CommitID
deriving DecidableEq

/-- Method `si.GetHash()` returns the commit hash of the store. -/
def StoreInfo.GetHash (si : StoreInfo) : List Nat := si.CommitID.Hash

/-- Structure `CommitInfo` defines commit information used by the multi-store when
committing a version/height.  `Timestamp` is the `UnixNano` value of the
Go `time.Time` field. -/
structure CommitInfo where
  Version : Nat
  StoreInfos : List StoreInfo
  Timestamp : Int
  CommitHash : List Nat
deriving DecidableEq

/-- The comparator of the `sort.Slice` call in `GetStoreProof`, as the
non-strict total preorder it sorts by: `a` may precede `b` iff
`¬ (b.Name < a.Name)`. -/
def storeLe (a b : StoreInfo) : Prop := ltBytes b.Name a.Name = false

/-- The corresponding strict order, used to show sorted results unique. -/
def storeLt (a b : StoreInfo) : Prop := ltBytes a.Name b.Name = true

instance : DecidableRel storeLe := fun a b =>
  inferInstanceAs (Decidable (ltBytes b.Name a.Name = false))

instance : DecidableRel storeLt := fun a b =>
  inferInstanceAs (Decidable (ltBytes a.Name b.Name = true))

instance : IsTotal StoreInfo storeLe := by
  constructor
  intro a b
  by_cases h : ltBytes b.Name a.Name = false
  · exact Or.inl h
  · refine Or.inr (ltBytes_asymm ?_)
    cases hx : ltBytes b.Name a.Name with
    | false => exact absurd hx h
    | true => rfl

instance : IsTrans StoreInfo storeLe := by
  constructor
  intro a b c hab hbc
  unfold storeLe at *
  by_contra hc
  have hca : ltBytes c.Name a.Name = true := by
    cases hx : ltBytes c.Name a.Name with
    | false => exact absurd hx hc
    | true => rfl
  -- from c < a together with ¬ b < a and ¬ c < b derive a contradiction
  cases hba : ltBytes b.Name a.Name with
  | true => exact Bool.noConfusion (hab ▸ hba)
  | false =>
    cases hcb : ltBytes c.Name b.Name with
    | true => exact Bool.noConfusion (hbc ▸ hcb)
    | false =>
      cases hab2 : ltBytes a.Name b.Name with
      | true =>
        have := ltBytes_trans hca hab2
        rw [hbc] at this
        exact Bool.noConfusion this
      | false =>
        have : a.Name = b.Name := ltBytes_conn hab2 hba
        rw [this] at hca
        rw [hbc] at hca
        exact Bool.noConfusion hca

instance : IsAntisymm StoreInfo storeLt := by
  constructor
  intro a b hab hba
  have := ltBytes_trans hab hba
  rw [ltBytes_irrefl] at this
  exact absurd this Bool.noConfusion

/-- The in-place `sort.Slice(ci.StoreInfos, less)` of `GetStoreProof`,
with `less(i, j) = StoreInfos[i].Name < StoreInfos[j].Name`. -/
def sortStoreInfos (l : List StoreInfo) : List StoreInfo :=
  List.insertionSort storeLe l

/-- The index-selection loop of `GetStoreProof`: `index` starts at `0`
and is overwritten by every loop position whose name equals the request
(so the last match wins); `i` is the current position. -/
def selectIndexAux (key : List Nat) : List StoreInfo → Nat → Nat → Nat
  | [], _, acc => acc
  | si :: rest, i, acc =>
    selectIndexAux key rest (i + 1) (if si.Name = key then i else acc)

/-- The index `GetStoreProof` proves: last position whose name equals
`key`, defaulting to `0` when no name matches. -/
def selectIndex (l : List StoreInfo) (key : List Nat) : Nat :=
  selectIndexAux key l 0 0

/-- The leaf hashes of `GetStoreProof`:
`leaves[i] = LeafHash(name, store_hash)` in list order. -/
def storeLeaves (H : List Nat → List Nat) (l : List StoreInfo) :
    List (List Nat) :=
  l.map (fun si => LeafHash H si.Name si.GetHash)

/-! ## Commitment proof operator (`proof.go`) -/

/-- Proof operation type constant `ProofOpIAVLCommitment`. -/
def ProofOpIAVLCommitment : String := "ics23:iavl"

/-- Proof operation type constant `ProofOpSimpleMerkleCommitment`. -/
def ProofOpSimpleMerkleCommitment : String := "ics23:simple"

/-- Proof operation type constant `ProofOpSMTCommitment`. -/
def ProofOpSMTCommitment : String := "ics23:smt"

/-- The three `ics23.ProofSpec` constants the code binds to the three
type tags (`IavlSpec`, `TendermintSpec`, `SmtSpec`).  Their internal
parameters are never inspected by the code under verification, so they
are modelled as an enumeration. -/
inductive ProofSpec where
  | iavl
  | tendermint
  | smt
deriving DecidableEq

/-- Structure `CommitmentOp` wraps an ics23 commitment proof together with the key
it proves, a type tag and a proof spec.  The payload type `P` abstracts
the external `ics23.CommitmentProof`; `opType` is the Go field `Type`. -/
structure CommitmentOp (P : Type) where
  opType : String
  Key : List Nat
  Spec : ProofSpec
  Proof : P
deriving DecidableEq

/-- Constructor `NewIAVLCommitmentOp` binds the IAVL tag and spec to a key/proof. -/
def NewIAVLCommitmentOp {P : Type} (key : List Nat) (proof : P) :
    CommitmentOp P :=
  { opType := ProofOpIAVLCommitment, Spec := ProofSpec.iavl,
    Key := key, Proof := proof }

/-- Constructor `NewSimpleMerkleCommitmentOp` binds the simple-Merkle tag and spec. -/
def NewSimpleMerkleCommitmentOp {P : Type} (key : List Nat) (proof : P) :
    CommitmentOp P :=
  { opType := ProofOpSimpleMerkleCommitment, Spec := ProofSpec.tendermint,
    Key := key, Proof := proof }

/-- Constructor `NewSMTCommitmentOp` binds the sparse-Merkle tag and spec. -/
def NewSMTCommitmentOp {P : Type} (key : List Nat) (proof : P) :
    CommitmentOp P :=
  { opType := ProofOpSMTCommitment, Spec := ProofSpec.smt,
    Key := key, Proof := proof }

/-- Method `op.GetKey()`. -/
def CommitmentOp.GetKey {P : Type} (op : CommitmentOp P) : List Nat := op.Key

/-- Abstract interface of the external ics23 library, through which the
verified code observes a proof payload: root calculation (which may
fail), membership verification and non-membership verification, and
protobuf serialization. -/
structure ICS23 (P : Type) where
  calculate : P → Except String (List Nat)
  verifyMembership : ProofSpec → List Nat → P → List Nat → List Nat → Bool
  verifyNonMembership : ProofSpec → List Nat → P → List Nat → Bool
  marshal : P → List Nat

/-- The four error returns of `CommitmentOp.Run`, distinguished the way
the wrap messages of the code distinguish them (all wrap `ErrInvalidProof`). -/
inductive RunError where
  | calcFailed (msg : String)
  | absenceFailed (key : List Nat)
  | existenceFailed (key value : List Nat)
  | badArity (n : Nat)
deriving DecidableEq

/-- Method `CommitmentOp.Run`: calculate the root from the embedded proof; then
with zero arguments verify absence of the key, with one argument verify
existence of the key with value `args[0]`, and fail on any other
argument count; on success return `[root]`. -/
def CommitmentOp.Run {P : Type} (lib : ICS23 P) (op : CommitmentOp P)
    (args : List (List Nat)) : Except RunError (List (List Nat)) :=
  match lib.calculate op.Proof with
  | Except.error e => Except.error (RunError.calcFailed e)
  | Except.ok root =>
    match args with
    | [] =>
      if lib.verifyNonMembership op.Spec root op.Proof op.Key then
        Except.ok [root]
      else Except.error (RunError.absenceFailed op.Key)
    | [value] =>
      if lib.verifyMembership op.Spec root op.Proof op.Key value then
        Except.ok [root]
      else Except.error (RunError.existenceFailed op.Key value)
    | _ => Except.error (RunError.badArity args.length)

/-- The wire proof envelope `cmtcrypto.ProofOp` (§6). -/
structure ProofOpEnvelope where
  ptype : String
  key : List Nat
  data : List Nat
deriving DecidableEq

/-- Method `op.ProofOp()`: serialize the payload and wrap it with the type tag
and key.  `mars` is the external protobuf `Marshal` of the payload. -/
def CommitmentOp.ProofOp {P : Type} (mars : P → List Nat)
    (op : CommitmentOp P) : ProofOpEnvelope :=
  { ptype := op.opType, key := op.Key, data := mars op.Proof }

/-- The existence-proof payload produced for the simple-Merkle tree by
converting an inclusion path; carries the proven key and value and the
sibling path.  Models the `ics23.ExistenceProof` built by the conversion
helpers that live outside the verified files. -/
structure SimpleExistenceProof where
  key : List Nat
  value : List Nat
  path : List (Bool × List Nat)
deriving DecidableEq

/-- Modelled from the spec: missing repository function
`ConvertCommitmentOp` (§4.2/§4.3) — wraps an inclusion path into a
`SimpleMerkle`-typed `CommitmentOp` keyed by the store name with value
the hash of that store. -/
def ConvertCommitmentOp (inners : List (Bool × List Nat))
    (key value : List Nat) : CommitmentOp SimpleExistenceProof :=
  NewSimpleMerkleCommitmentOp key
    { key := key, value := value, path := inners }

/-! ## `CommitInfo` operations -/

/-- Method `ci.GetStoreProof(storeKey)`: sort the store infos in place, hash
every `(name, store_hash)` pair into a leaf, select the index whose name
equals `storeKey` (default `0`), build root and inclusion path, and wrap
the path into a commitment operator.  The first component is `none`
exactly when the unguarded Go access `ci.StoreInfos[index]` is
out of bounds (empty store list); the second component is the mutated
receiver (store infos sorted). -/
def CommitInfo.GetStoreProof (H : List Nat → List Nat) (ci : CommitInfo)
    (storeKey : List Nat) :
    Option (List Nat × CommitmentOp SimpleExistenceProof) × CommitInfo :=
  let sorted := sortStoreInfos ci.StoreInfos
  let leaves := storeLeaves H sorted
  let index := selectIndex sorted storeKey
  let res := ProofFromByteSlices H leaves index
  let ci' := { ci with StoreInfos := sorted }
  match sorted.get? index with
  | none => (none, ci')
  | some si =>
    (some (res.1, ConvertCommitmentOp res.2 storeKey si.GetHash), ci')

/-- Method `ci.Hash()`: nil for an empty store list; the pre-set `CommitHash`
verbatim when that field is non-empty; otherwise the root returned by
`GetStoreProof("")`.  The second component is the mutated receiver. -/
def CommitInfo.Hash (H : List Nat → List Nat) (ci : CommitInfo) :
    List Nat × CommitInfo :=
  if ci.StoreInfos.length = 0 then ([], ci)
  else if ci.CommitHash.length ≠ 0 then (ci.CommitHash, ci)
  else
    let res := CommitInfo.GetStoreProof H ci []
    (match res.1 with
     | some (root, _) => root
     | none => [], res.2)


/-! ## 4.4 Deterministic codec

The varint and length-prefix helpers (`EncodeUvarint`, `EncodeVarint`,
`EncodeBytes` and their decoders) are repository functions called from
`commit_info.go` but defined outside the files under verification; they
are modelled from the spec (§4.4, §6): protobuf-style unsigned varints,
zigzag signed varints, and uvarint length prefixes.  Decoders return the
decoded value together with the number of bytes consumed, as the Go
helpers do; `none` models a decode error. -/

/-- Modelled from the spec: missing repository function `EncodeUvarint`
(base-128 little-endian varint, continuation bit on every byte except
the last). -/
def EncodeUvarint (n : Nat) : List Nat :=
  if n < 128 then [n]
  else (n % 128 + 128) :: EncodeUvarint (n / 128)
termination_by n
decreasing_by exact Nat.div_lt_self (by omega) (by decide)

/-- Modelled from the spec: missing repository function `DecodeUvarint`. -/
def DecodeUvarint : List Nat → Option (Nat × Nat)
  | [] => none
  | b :: rest =>
    if b < 128 then some (b, 1)
    else
      match DecodeUvarint rest with
      | none => none
      | some (v, n) => some (b % 128 + 128 * v, n + 1)

/-- Zigzag mapping of a signed integer onto an unsigned one, as used by
the signed varint encoding. -/
def zigzag (z : Int) : Nat :=
  if 0 ≤ z then 2 * z.toNat else 2 * (-z).toNat - 1

/-- Inverse of `zigzag`. -/
def unzigzag (n : Nat) : Int :=
  if n % 2 = 0 then (n / 2 : Nat) else -((n / 2 : Nat) : Int) - 1

/-- Modelled from the spec: missing repository function `EncodeVarint`
(zigzag signed varint). -/
def EncodeVarint (z : Int) : List Nat := EncodeUvarint (zigzag z)

/-- Modelled from the spec: missing repository function `DecodeVarint`. -/
def DecodeVarint (buf : List Nat) : Option (Int × Nat) :=
  match DecodeUvarint buf with
  | none => none
  | some (v, n) => some (unzigzag v, n)

/-- Modelled from the spec: missing repository function `EncodeBytes`
(uvarint length prefix followed by the raw bytes). -/
def EncodeBytes (bs : List Nat) : List Nat :=
  EncodeUvarint bs.length ++ bs

/-- Modelled from the spec: missing repository function `DecodeBytes`;
fails when fewer bytes remain than the length prefix announces. -/
def DecodeBytes (buf : List Nat) : Option (List Nat × Nat) :=
  match DecodeUvarint buf with
  | none => none
  | some (len, n) =>
    let rest := buf.drop n
    if len ≤ rest.length then some (rest.take len, n + len) else none

/-- One second in nanoseconds (`int64(time.Second)`). -/
def nsPerSecond : Int := 1000000000

/-- Method `ci.Marshal()`: uvarint version, zigzag-varint `UnixNano` timestamp,
uvarint store count, then per store a length-prefixed name and a
length-prefixed hash.  The Go error path only fires on buffer-write
failure, which `bytes.Buffer` never reports, so the model is total. -/
def CommitInfo.Marshal (ci : CommitInfo) : List Nat :=
  EncodeUvarint ci.Version ++ EncodeVarint ci.Timestamp ++
    EncodeUvarint ci.StoreInfos.length ++
    (ci.StoreInfos.map (fun si =>
      EncodeBytes si.Name ++ EncodeBytes si.CommitID.Hash)).flatten

/-- The store-info decoding loop of `Unmarshal`: decode `count` pairs of
length-prefixed name and hash, give every decoded entry the aggregate
`version` as its per-store version, and return the remaining buffer. -/
def decodeStoreInfos (version : Nat) :
    Nat → List Nat → Option (List StoreInfo × List Nat)
  | 0, buf => some ([], buf)
  | count + 1, buf => do
    let (name, n₁) ← DecodeBytes buf
    let buf₁ := buf.drop n₁
    let (hash, n₂) ← DecodeBytes buf₁
    let buf₂ := buf₁.drop n₂
    let (rest, buf₃) ← decodeStoreInfos version count buf₂
    return ({ Name := name, CommitID := { Version := version, Hash := hash } }
      :: rest, buf₃)

/-- Method `ci.Unmarshal(buf)`: decode version, timestamp and store infos into a
fresh (zero-valued) `CommitInfo`.  The timestamp is reconstructed as
`time.Unix(t / 1e9, t % 1e9)` with Go truncated division, whose
`UnixNano` is `(t / 1e9) * 1e9 + t % 1e9`.  Trailing bytes are ignored,
as in the Go code; `commit_hash` is never decoded. -/
def CommitInfo.Unmarshal (buf : List Nat) : Option CommitInfo := do
  let (version, n₁) ← DecodeUvarint buf
  let buf₁ := buf.drop n₁
  let (timestamp, n₂) ← DecodeVarint buf₁
  let buf₂ := buf₁.drop n₂
  let (count, n₃) ← DecodeUvarint buf₂
  let buf₃ := buf₂.drop n₃
  let (infos, _) ← decodeStoreInfos version count buf₃
  return { Version := version,
           StoreInfos := infos,
           Timestamp := (timestamp.tdiv nsPerSecond) * nsPerSecond +
             timestamp.tmod nsPerSecond,
           CommitHash := [] }

/-! ## Map proofs (`ProofOpFromMap`)

`internalmaps.ProofsFromMap` and `internalproofs.ConvertExistenceProof`
are repository functions called from `proof.go` but defined outside the
files under verification; the first is modelled from the spec, the
second is kept as an explicit function parameter (the verified code only
forwards its result or propagates its error). -/

/-- Sort order on `(name, hash)` map entries by name, as the map-proof
helper sorts the map keys. -/
def pairLe (a b : List Nat × List Nat) : Prop := ltBytes b.1 a.1 = false

instance : DecidableRel pairLe := fun a b =>
  inferInstanceAs (Decidable (ltBytes b.1 a.1 = false))

/-- Modelled from the spec: missing repository function
`internalmaps.ProofsFromMap` — builds, over the map entries sorted by
key, the same kind of inclusion proof as `GetStoreProof` (§4.3: "builds
the same kind of inclusion proof as `get_store_proof` of 4.2 but from a
raw map input"), returning the root and a proof table holding exactly
the map keys. -/
def ProofsFromMap (H : List Nat → List Nat)
    (cmap : List (List Nat × List Nat)) :
    List Nat × List (List Nat × List (Bool × List Nat)) :=
  let sorted := List.insertionSort pairLe cmap
  let leaves := sorted.map (fun p => LeafHash H p.1 p.2)
  ((ProofFromByteSlices H leaves 0).1,
    sorted.enum.map (fun p => (p.2.1, (ProofFromByteSlices H leaves p.1).2)))

/-- The two error returns of `ProofOpFromMap`. -/
inductive MapProofError where
  | unknownStore (name : List Nat)
  | convertFailed (msg : String)
deriving DecidableEq

/-- Function `ProofOpFromMap(cmap, storeName)`: look the requested name up in the
proof table built from the map (failing when it is not a key of the
map), convert the simple proof into an existence proof via `conv`
(failing when the conversion fails), and wrap the result as a
simple-Merkle commitment operator serialized into a wire envelope.
`conv` models `internalproofs.ConvertExistenceProof` applied to the
looked-up proof, the store name and the hash the map holds for it; `mars` models
the protobuf serialization of the resulting payload. -/
def ProofOpFromMap (H : List Nat → List Nat)
    (conv : List (Bool × List Nat) → List Nat → List Nat →
      Except String SimpleExistenceProof)
    (mars : SimpleExistenceProof → List Nat)
    (cmap : List (List Nat × List Nat)) (storeName : List Nat) :
    Except MapProofError ProofOpEnvelope :=
  let proofs := (ProofsFromMap H cmap).2
  match proofs.lookup storeName with
  | none => Except.error (MapProofError.unknownStore storeName)
  | some proof =>
    match conv proof storeName ((cmap.lookup storeName).getD []) with
    | Except.error e => Except.error (MapProofError.convertFailed e)
    | Except.ok existProof =>
      Except.ok ((NewSimpleMerkleCommitmentOp storeName existProof).ProofOp mars)

/-! ## Codec round-trip lemmas -/

theorem decodeUvarint_encodeUvarint (n : Nat) :
    ∀ rest, DecodeUvarint (EncodeUvarint n ++ rest) =
      some (n, (EncodeUvarint n).length) := by
  induction n using Nat.strong_induction_on with
  | _ n ih =>
    intro rest
    by_cases h : n < 128
    · rw [EncodeUvarint]
      simp [h, DecodeUvarint]
    · rw [EncodeUvarint]
      simp only [if_neg h]
      have hb : ¬ n % 128 + 128 < 128 := by omega
      simp only [List.cons_append, DecodeUvarint, if_neg hb, List.append_eq]
      rw [ih (n / 128) (Nat.div_lt_self (by omega) (by decide)) rest]
      have hmod : (n % 128 + 128) % 128 = n % 128 := by omega
      simp [hmod, Nat.mod_add_div]

theorem decodeBytes_encodeBytes (bs : List Nat) (rest : List Nat) :
    DecodeBytes (EncodeBytes bs ++ rest) =
      some (bs, (EncodeBytes bs).length) := by
  unfold DecodeBytes EncodeBytes
  rw [List.append_assoc, decodeUvarint_encodeUvarint bs.length (bs ++ rest)]
  simp only [List.drop_left]
  simp only [List.take_left, List.length_append]
  rw [if_pos (by omega)]

theorem unzigzag_zigzag (z : Int) : unzigzag (zigzag z) = z := by
  unfold zigzag unzigzag
  by_cases h : 0 ≤ z
  · simp only [if_pos h]
    have h2 : 2 * z.toNat % 2 = 0 := by omega
    simp only [if_pos h2]
    have h3 : 2 * z.toNat / 2 = z.toNat := by omega
    rw [h3, Int.toNat_of_nonneg h]
  · simp only [if_neg h]
    have hz : 1 ≤ (-z).toNat := by omega
    have h2 : ¬ (2 * (-z).toNat - 1) % 2 = 0 := by omega
    simp only [if_neg h2]
    have h3 : (2 * (-z).toNat - 1) / 2 = (-z).toNat - 1 := by omega
    rw [h3]
    omega

theorem decodeVarint_encodeVarint (z : Int) (rest : List Nat) :
    DecodeVarint (EncodeVarint z ++ rest) =
      some (z, (EncodeVarint z).length) := by
  unfold DecodeVarint EncodeVarint
  rw [decodeUvarint_encodeUvarint (zigzag z) rest]
  simp [unzigzag_zigzag]

/-- The per-store encoding of one store info inside `Marshal`. -/
def encodeStoreInfo (si : StoreInfo) : List Nat :=
  EncodeBytes si.Name ++ EncodeBytes si.CommitID.Hash

theorem decodeStoreInfos_encode (version : Nat) (l : List StoreInfo) :
    ∀ rest, decodeStoreInfos version l.length
        ((l.map encodeStoreInfo).flatten ++ rest) =
      some (l.map (fun si =>
        { Name := si.Name,
          CommitID := { Version := version, Hash := si.CommitID.Hash } }),
        rest) := by
  induction l with
  | nil => intro rest; simp [decodeStoreInfos]
  | cons si tail ih =>
    intro rest
    simp only [List.map_cons, List.flatten_cons, List.length_cons]
    rw [decodeStoreInfos]
    simp only [encodeStoreInfo, List.append_assoc]
    rw [decodeBytes_encodeBytes si.Name
      (EncodeBytes si.CommitID.Hash ++ ((tail.map encodeStoreInfo).flatten ++ rest))]
    simp only [Option.bind_eq_bind, Option.some_bind, List.drop_left]
    rw [decodeBytes_encodeBytes si.CommitID.Hash
      ((tail.map encodeStoreInfo).flatten ++ rest)]
    simp only [Option.some_bind, List.drop_left]
    rw [ih rest]
    simp

/-! ## Claim theorems: codec (C2) -/

/-- C2: for every `CommitInfo` (any number of store infos, including
zero), decoding the encoding reproduces the version, the timestamp and
the store infos exactly in order — names and hashes equal the originals
and every decoded per-store `CommitID.Version` equals the aggregate
version, which is not separately encoded — while `commit_hash` is left
empty, as it is never encoded. -/
theorem commitInfo_marshal_unmarshal_roundTrip (ci : CommitInfo) :
    CommitInfo.Unmarshal (CommitInfo.Marshal ci) =
      some { Version := ci.Version,
             StoreInfos := ci.StoreInfos.map (fun si =>
               { Name := si.Name,
                 CommitID := { Version := ci.Version,
                               Hash := si.CommitID.Hash } }),
             Timestamp := ci.Timestamp,
             CommitHash := [] } := by
  unfold CommitInfo.Unmarshal CommitInfo.Marshal
  rw [show (fun si => EncodeBytes si.Name ++ EncodeBytes si.CommitID.Hash) =
    encodeStoreInfo from rfl]
  simp only [List.append_assoc]
  rw [decodeUvarint_encodeUvarint ci.Version]
  simp only [Option.bind_eq_bind, Option.some_bind, List.drop_left]
  rw [decodeVarint_encodeVarint ci.Timestamp]
  simp only [Option.some_bind, List.drop_left]
  rw [decodeUvarint_encodeUvarint ci.StoreInfos.length]
  simp only [Option.some_bind, List.drop_left]
  rw [show (ci.StoreInfos.map encodeStoreInfo).flatten =
    (ci.StoreInfos.map encodeStoreInfo).flatten ++ [] from
    (List.append_nil _).symm]
  rw [decodeStoreInfos_encode ci.Version ci.StoreInfos []]
  simp only [Option.some_bind, Option.pure_def, Option.some.injEq,
    CommitInfo.mk.injEq, and_true, true_and]
  rw [Int.mul_comm]
  exact Int.tdiv_add_tmod ci.Timestamp nsPerSecond

/-! ## Index selection lemmas -/

theorem selectIndexAux_no_match {key : List Nat} :
    ∀ {l : List StoreInfo} (i acc : Nat), (∀ si ∈ l, si.Name ≠ key) →
      selectIndexAux key l i acc = acc := by
  intro l
  induction l with
  | nil => intro i acc _; rfl
  | cons si rest ih =>
    intro i acc h
    have hsi : si.Name ≠ key := h si (List.mem_cons_self si rest)
    simp only [selectIndexAux, if_neg hsi]
    exact ih (i + 1) acc (fun s hs => h s (List.mem_cons_of_mem si hs))

theorem selectIndexAux_match {key : List Nat} :
    ∀ {l : List StoreInfo} (i acc : Nat), (∃ si ∈ l, si.Name = key) →
      ∃ j si, l.get? j = some si ∧ si.Name = key ∧
        selectIndexAux key l i acc = i + j := by
  intro l
  induction l with
  | nil => intro i acc h; simp at h
  | cons si rest ih =>
    intro i acc h
    by_cases hrest : ∃ s ∈ rest, s.Name = key
    · obtain ⟨j, s, hget, hname, haux⟩ := ih (i + 1) (if si.Name = key then i else acc) hrest
      refine ⟨j + 1, s, ?_, hname, ?_⟩
      · simpa using hget
      · simp only [selectIndexAux]
        rw [haux]
        omega
    · have hsi : si.Name = key := by
        obtain ⟨s, hs, hname⟩ := h
        rcases List.mem_cons.mp hs with h1 | h2
        · exact h1 ▸ hname
        · exact absurd ⟨s, h2, hname⟩ hrest
      refine ⟨0, si, rfl, hsi, ?_⟩
      simp only [selectIndexAux, if_pos hsi]
      rw [selectIndexAux_no_match (i + 1) i
        (fun s hs hn => hrest ⟨s, hs, hn⟩)]
      omega

theorem selectIndex_lt {l : List StoreInfo} (key : List Nat) (h : l ≠ []) :
    selectIndex l key < l.length := by
  by_cases hm : ∃ si ∈ l, si.Name = key
  · obtain ⟨j, si, hget, _, haux⟩ := selectIndexAux_match 0 0 hm
    have hlt : j < l.length := by
      rcases List.get?_eq_some.mp hget with ⟨hlt, _⟩
      exact hlt
    unfold selectIndex
    omega
  · unfold selectIndex
    rw [selectIndexAux_no_match 0 0 (fun s hs hn => hm ⟨s, hs, hn⟩)]
    cases l with
    | nil => exact absurd rfl h
    | cons a as => simp

/-! ## `GetStoreProof` / `Hash` shape lemmas -/

theorem sortStoreInfos_perm (l : List StoreInfo) : (sortStoreInfos l).Perm l :=
  List.perm_insertionSort storeLe l

theorem sortStoreInfos_ne_nil {l : List StoreInfo} (h : l ≠ []) :
    sortStoreInfos l ≠ [] := by
  intro hc
  have hlen : (sortStoreInfos l).length = l.length :=
    (sortStoreInfos_perm l).length_eq
  rw [hc] at hlen
  exact h (List.length_eq_zero.mp hlen.symm)

theorem getStoreProof_eq_of_ne_nil (H : List Nat → List Nat)
    (ci : CommitInfo) (key : List Nat) (h : ci.StoreInfos ≠ []) :
    ∃ si, (sortStoreInfos ci.StoreInfos).get?
        (selectIndex (sortStoreInfos ci.StoreInfos) key) = some si ∧
      CommitInfo.GetStoreProof H ci key =
        (some ((ProofFromByteSlices H
              (storeLeaves H (sortStoreInfos ci.StoreInfos))
              (selectIndex (sortStoreInfos ci.StoreInfos) key)).1,
            ConvertCommitmentOp
              (ProofFromByteSlices H
                (storeLeaves H (sortStoreInfos ci.StoreInfos))
                (selectIndex (sortStoreInfos ci.StoreInfos) key)).2
              key si.GetHash),
         { ci with StoreInfos := sortStoreInfos ci.StoreInfos }) := by
  have hne : sortStoreInfos ci.StoreInfos ≠ [] := sortStoreInfos_ne_nil h
  have hlt : selectIndex (sortStoreInfos ci.StoreInfos) key <
      (sortStoreInfos ci.StoreInfos).length := selectIndex_lt key hne
  have hsome := List.get?_eq_get hlt
  refine ⟨(sortStoreInfos ci.StoreInfos).get ⟨_, hlt⟩, hsome, ?_⟩
  unfold CommitInfo.GetStoreProof
  simp only [hsome]

theorem hash_eq_of_ne_nil (H : List Nat → List Nat) (ci : CommitInfo)
    (h₁ : ci.StoreInfos ≠ []) (h₂ : ci.CommitHash = []) :
    CommitInfo.Hash H ci =
      ((ProofFromByteSlices H (storeLeaves H (sortStoreInfos ci.StoreInfos))
          (selectIndex (sortStoreInfos ci.StoreInfos) [])).1,
       { ci with StoreInfos := sortStoreInfos ci.StoreInfos }) := by
  obtain ⟨si, _, hgsp⟩ := getStoreProof_eq_of_ne_nil H ci [] h₁
  unfold CommitInfo.Hash
  rw [if_neg (fun hc => h₁ (List.length_eq_zero.mp hc))]
  rw [if_neg (by rw [h₂]; simp)]
  rw [hgsp]

/-! ## Claim theorems: `Hash` and `GetStoreProof` -/

/-- C9: with an empty `store_infos` list, `Hash()` returns the nil
sentinel, leaves the receiver untouched, and in particular neither
consults nor populates the `commit_hash` cache (the result is `[]` even
when the cache field is non-empty). -/
theorem hash_empty_storeInfos (H : List Nat → List Nat) (v : Nat) (t : Int)
    (cache : List Nat) :
    CommitInfo.Hash H (CommitInfo.mk v [] t cache) =
      ([], CommitInfo.mk v [] t cache) := by
  unfold CommitInfo.Hash
  simp

/-- A concrete hash function for counterexamples and witnesses: the
identity on byte strings. -/
def Hid : List Nat → List Nat := fun l => l

/-- A concrete one-store `CommitInfo` with no pre-set commit hash. -/
def ciOne : CommitInfo :=
  { Version := 1,
    StoreInfos := [{ Name := [97], CommitID := { Version := 1, Hash := [5] } }],
    Timestamp := 0,
    CommitHash := [] }

/-- Value `ciOne` after the hash of its single store changed from `[5]` to `[6]`. -/
def ciOne' : CommitInfo :=
  { Version := 1,
    StoreInfos := [{ Name := [97], CommitID := { Version := 1, Hash := [6] } }],
    Timestamp := 0,
    CommitHash := [] }

/-- C1 counterexample: the first call to `Hash()` on a `CommitInfo` with
non-empty `store_infos` and empty `commit_hash` does **not** cache the
computed root in the `commit_hash` field (the field stays empty while the
returned root is non-empty), and a later call after `store_infos`
changed returns a different, freshly recomputed root — contradicting
"caches it in the commit_hash field, and every subsequent call returns
that cached value verbatim". -/
theorem hash_does_not_cache_counterexample :
    (CommitInfo.Hash Hid ciOne).2.CommitHash = [] ∧
    (CommitInfo.Hash Hid ciOne).1 = [0, 97, 5] ∧
    (CommitInfo.Hash Hid ciOne').1 = [0, 97, 6] := by
  decide

/-- C1 (amended): for every `CommitInfo` with non-empty `store_infos`
and no previously set `commit_hash`, every call to `Hash()` recomputes
the aggregate root of the current (sorted) `store_infos` and leaves the
`commit_hash` field empty — nothing is cached, so subsequent calls
recompute from the then-current `store_infos`; only a non-empty pre-set
`commit_hash` is returned verbatim without recomputation. -/
theorem hash_recomputes_and_never_caches (H : List Nat → List Nat)
    (ci : CommitInfo) (h₁ : ci.StoreInfos ≠ []) :
    (ci.CommitHash = [] →
      (CommitInfo.Hash H ci).1 =
        (ProofFromByteSlices H (storeLeaves H (sortStoreInfos ci.StoreInfos))
          (selectIndex (sortStoreInfos ci.StoreInfos) [])).1 ∧
      (CommitInfo.Hash H ci).2.CommitHash = []) ∧
    (ci.CommitHash ≠ [] → CommitInfo.Hash H ci = (ci.CommitHash, ci)) := by
  constructor
  · intro h₂
    rw [hash_eq_of_ne_nil H ci h₁ h₂]
    exact ⟨rfl, h₂⟩
  · intro h₂
    unfold CommitInfo.Hash
    rw [if_neg (fun hc => h₁ (List.length_eq_zero.mp hc))]
    rw [if_pos (fun hc => h₂ (List.length_eq_zero.mp hc))]

/-- Witness for the amended C1 theorem at `ciOne`. -/
theorem hash_recomputes_and_never_caches_witness :
    (CommitInfo.Hash Hid ciOne).1 =
      (ProofFromByteSlices Hid (storeLeaves Hid (sortStoreInfos ciOne.StoreInfos))
        (selectIndex (sortStoreInfos ciOne.StoreInfos) [])).1 ∧
    (CommitInfo.Hash Hid ciOne).2.CommitHash = [] :=
  (hash_recomputes_and_never_caches Hid ciOne (by decide)).1 (by decide)

/-- C10: non-empty `store_infos` is a genuine precondition of
`GetStoreProof`: with at least one store info the access at the selected
index is in bounds for any requested key (the call produces a result),
while with an empty list the unguarded index-0 access is out of bounds
(modelled by `none`) — the function neither guards nor returns an error
for that case. -/
theorem getStoreProof_index_bounds (H : List Nat → List Nat)
    (ci : CommitInfo) (key : List Nat) :
    (ci.StoreInfos = [] → (CommitInfo.GetStoreProof H ci key).1 = none) ∧
    (ci.StoreInfos ≠ [] →
      ((CommitInfo.GetStoreProof H ci key).1).isSome = true) := by
  constructor
  · intro h
    unfold CommitInfo.GetStoreProof
    rw [h]
    rfl
  · intro h
    obtain ⟨si, _, hgsp⟩ := getStoreProof_eq_of_ne_nil H ci key h
    rw [hgsp]
    rfl

/-- Witness for the C10 theorem: out-of-bounds on an empty store list,
in-bounds on a one-store list. -/
theorem getStoreProof_index_bounds_witness :
    (CommitInfo.GetStoreProof Hid (CommitInfo.mk 1 [] 0 []) [97]).1 = none ∧
    ((CommitInfo.GetStoreProof Hid ciOne [97]).1).isSome = true :=
  ⟨(getStoreProof_index_bounds Hid (CommitInfo.mk 1 [] 0 []) [97]).1 rfl,
   (getStoreProof_index_bounds Hid ciOne [97]).2 (by decide)⟩

/-- C6: on a `CommitInfo` with non-empty `store_infos`,
`GetStoreProof(name)` never fails, for matching and non-matching names
alike: it returns a root and a `CommitmentOp` keyed by the requested
name; when some sorted store name equals the request the selected
leaf is one whose name equals the request (and the proof value of the op is
the hash of that store), otherwise the leaf index defaults to `0`. -/
theorem getStoreProof_total_on_nonempty (H : List Nat → List Nat)
    (ci : CommitInfo) (key : List Nat) (h : ci.StoreInfos ≠ []) :
    ∃ root op, (CommitInfo.GetStoreProof H ci key).1 = some (root, op) ∧
      op.Key = key ∧
      ((∀ si ∈ sortStoreInfos ci.StoreInfos, si.Name ≠ key) →
        selectIndex (sortStoreInfos ci.StoreInfos) key = 0) ∧
      ((∃ si ∈ sortStoreInfos ci.StoreInfos, si.Name = key) →
        ∃ si, (sortStoreInfos ci.StoreInfos).get?
            (selectIndex (sortStoreInfos ci.StoreInfos) key) = some si ∧
          si.Name = key ∧ op.Proof.value = si.GetHash) := by
  obtain ⟨si₀, hsome, hgsp⟩ := getStoreProof_eq_of_ne_nil H ci key h
  refine ⟨_, _, by rw [hgsp], rfl, ?_, ?_⟩
  · intro hno
    unfold selectIndex
    exact selectIndexAux_no_match 0 0 hno
  · intro hyes
    obtain ⟨j, si', hget, hname, haux⟩ := selectIndexAux_match 0 0 hyes
    have hidx : selectIndex (sortStoreInfos ci.StoreInfos) key = j := by
      unfold selectIndex
      omega
    refine ⟨si₀, hsome, ?_, rfl⟩
    have : some si₀ = some si' := by
      rw [← hsome, hidx, hget]
    rw [Option.some.injEq] at this
    rw [this]
    exact hname

/-- Witness for the C6 theorem at a one-store aggregate with a
non-matching requested name. -/
theorem getStoreProof_total_on_nonempty_witness :
    ∃ root op, (CommitInfo.GetStoreProof Hid ciOne [98]).1 = some (root, op) ∧
      op.Key = [98] ∧
      ((∀ si ∈ sortStoreInfos ciOne.StoreInfos, si.Name ≠ [98]) →
        selectIndex (sortStoreInfos ciOne.StoreInfos) [98] = 0) ∧
      ((∃ si ∈ sortStoreInfos ciOne.StoreInfos, si.Name = [98]) →
        ∃ si, (sortStoreInfos ciOne.StoreInfos).get?
            (selectIndex (sortStoreInfos ciOne.StoreInfos) [98]) = some si ∧
          si.Name = [98] ∧ op.Proof.value = si.GetHash) :=
  getStoreProof_total_on_nonempty Hid ciOne [98] (by decide)

/-! ## Sort determinism (C8) -/

theorem sorted_storeLt_of_sorted_le {l : List StoreInfo}
    (hs : List.Sorted storeLe l) (hn : (l.map StoreInfo.Name).Nodup) :
    List.Sorted storeLt l := by
  have hpn : l.Pairwise (fun a b => a.Name ≠ b.Name) := List.pairwise_map.mp hn
  refine List.Pairwise.imp₂ (fun a b hle hne => ?_) hs hpn
  unfold storeLe at hle
  unfold storeLt
  cases hx : ltBytes a.Name b.Name with
  | true => rfl
  | false => exact absurd (ltBytes_conn hx hle) hne

theorem sortStoreInfos_perm_eq {l₁ l₂ : List StoreInfo} (hp : l₁.Perm l₂)
    (hn : (l₁.map StoreInfo.Name).Nodup) :
    sortStoreInfos l₁ = sortStoreInfos l₂ := by
  have hn₂ : (l₂.map StoreInfo.Name).Nodup := (hp.map StoreInfo.Name).nodup_iff.mp hn
  have hn₁s : ((sortStoreInfos l₁).map StoreInfo.Name).Nodup :=
    ((sortStoreInfos_perm l₁).map StoreInfo.Name).nodup_iff.mpr hn
  have hn₂s : ((sortStoreInfos l₂).map StoreInfo.Name).Nodup :=
    ((sortStoreInfos_perm l₂).map StoreInfo.Name).nodup_iff.mpr hn₂
  refine List.eq_of_perm_of_sorted (r := storeLt) ?_ ?_ ?_
  · exact (sortStoreInfos_perm l₁).trans (hp.trans (sortStoreInfos_perm l₂).symm)
  · exact sorted_storeLt_of_sorted_le (List.sorted_insertionSort storeLe l₁) hn₁s
  · exact sorted_storeLt_of_sorted_le (List.sorted_insertionSort storeLe l₂) hn₂s

/-- C8: for any collection of store infos with pairwise-distinct names
and no pre-set commit hash, `Hash()` returns the same root for every
permutation of the insertion order, and calling `Hash()` again on the
(mutated) receiver of a first call returns the same value. -/
theorem hash_permutation_invariant (H : List Nat → List Nat) (v : Nat)
    (t : Int) (l₁ l₂ : List StoreInfo) (hp : l₁.Perm l₂)
    (hn : (l₁.map StoreInfo.Name).Nodup) :
    (CommitInfo.Hash H (CommitInfo.mk v l₁ t [])).1 =
      (CommitInfo.Hash H (CommitInfo.mk v l₂ t [])).1 ∧
    (CommitInfo.Hash H ((CommitInfo.Hash H (CommitInfo.mk v l₁ t [])).2)).1 =
      (CommitInfo.Hash H (CommitInfo.mk v l₁ t [])).1 := by
  by_cases hnil : l₁ = []
  · subst hnil
    have hl₂ : l₂ = [] := hp.symm.eq_nil
    subst hl₂
    rw [hash_empty_storeInfos]
    exact ⟨rfl, by rw [hash_empty_storeInfos]⟩
  · have hnil₂ : l₂ ≠ [] := by
      intro hc
      exact hnil ((hc ▸ hp : l₁.Perm []).eq_nil)
    have hsort := sortStoreInfos_perm_eq hp hn
    have h₁ := hash_eq_of_ne_nil H (CommitInfo.mk v l₁ t []) hnil rfl
    have h₂ := hash_eq_of_ne_nil H (CommitInfo.mk v l₂ t []) hnil₂ rfl
    constructor
    · rw [h₁, h₂]
      simp only
      rw [hsort]
    · have hsle : List.Sorted storeLe (sortStoreInfos l₁) :=
        List.sorted_insertionSort storeLe l₁
      have hidem : sortStoreInfos (sortStoreInfos l₁) = sortStoreInfos l₁ :=
        hsle.insertionSort_eq
      have hne' : sortStoreInfos l₁ ≠ [] := sortStoreInfos_ne_nil hnil
      rw [h₁]
      have h₃ := hash_eq_of_ne_nil H
        (CommitInfo.mk v (sortStoreInfos l₁) t []) hne' rfl
      simp only at h₃ ⊢
      rw [h₃]
      simp only
      rw [hidem]

/-- A second concrete store info, name `[98]`. -/
def siB : StoreInfo := { Name := [98], CommitID := { Version := 1, Hash := [7] } }

/-- A first concrete store info, name `[97]`. -/
def siA : StoreInfo := { Name := [97], CommitID := { Version := 1, Hash := [5] } }

/-- Witness for the C8 theorem: the two insertion orders of a two-store
aggregate hash to the same root, and rehashing the mutated receiver is
stable. -/
theorem hash_permutation_invariant_witness :
    (CommitInfo.Hash Hid (CommitInfo.mk 1 [siA, siB] 0 [])).1 =
      (CommitInfo.Hash Hid (CommitInfo.mk 1 [siB, siA] 0 [])).1 ∧
    (CommitInfo.Hash Hid
        ((CommitInfo.Hash Hid (CommitInfo.mk 1 [siA, siB] 0 [])).2)).1 =
      (CommitInfo.Hash Hid (CommitInfo.mk 1 [siA, siB] 0 [])).1 :=
  hash_permutation_invariant Hid 1 0 [siA, siB] [siB, siA]
    (by decide) (by decide)

/-! ## Claim theorems: commitment proof operator (`proof.go`) -/

/-- A concrete ics23 interface whose root calculation succeeds with root
`[7]` and whose verifications all succeed. -/
def libOk : ICS23 Unit :=
  { calculate := fun _ => Except.ok [7],
    verifyMembership := fun _ _ _ _ _ => true,
    verifyNonMembership := fun _ _ _ _ => true,
    marshal := fun _ => [] }

/-- A concrete ics23 interface whose root calculation fails — the
behaviour of `ics23.CommitmentProof.Calculate` on a proof with no
variant set. -/
def libBad : ICS23 Unit :=
  { calculate := fun _ => Except.error ("boom"),
    verifyMembership := fun _ _ _ _ _ => true,
    verifyNonMembership := fun _ _ _ _ => true,
    marshal := fun _ => [] }

/-- C5: `Run` derives its root solely from the embedded proof (via the
library function `calculate`, which sees nothing but `op.Proof`); with exactly
one argument it verifies the proof as an existence proof of `op.Key`
with value `args[0]` against that derived root and `op.Spec`, returning
exactly `[root]` on success and an error (no root) on verification
failure. -/
theorem run_existence_verification {P : Type} (lib : ICS23 P)
    (op : CommitmentOp P) (value root : List Nat)
    (hcalc : lib.calculate op.Proof = Except.ok root) :
    (lib.verifyMembership op.Spec root op.Proof op.Key value = true →
      CommitmentOp.Run lib op [value] = Except.ok [root]) ∧
    (lib.verifyMembership op.Spec root op.Proof op.Key value = false →
      CommitmentOp.Run lib op [value] =
        Except.error (RunError.existenceFailed op.Key value)) := by
  unfold CommitmentOp.Run
  rw [hcalc]
  constructor <;> intro h <;> simp [h]

/-- Witness for the C5 theorem with a concrete library and operator. -/
theorem run_existence_verification_witness :
    CommitmentOp.Run libOk
      (CommitmentOp.mk ("ics23:simple") [1] ProofSpec.tendermint ()) [[2]] =
      Except.ok [[7]] :=
  (run_existence_verification libOk
    (CommitmentOp.mk ("ics23:simple") [1] ProofSpec.tendermint ()) [2] [7]
    rfl).1 rfl

/-- C4 counterexample: with an embedded proof whose root calculation
fails, `Run` with two arguments returns the root-calculation error, not
the malformed-arguments error — the claim wording "regardless of the embedded proof content" fails. -/
theorem run_arity_guard_counterexample :
    CommitmentOp.Run libBad
      (CommitmentOp.mk ("ics23:simple") [1] ProofSpec.tendermint ())
      [[1], [2]] = Except.error (RunError.calcFailed ("boom")) ∧
    RunError.calcFailed ("boom") ≠ RunError.badArity 2 :=
  ⟨rfl, by decide⟩

/-- C4 (amended): provided the root calculation of the embedded proof
succeeds, `Run` with an argument list of length 2 or more always fails
with the malformed-arguments error (when the calculation fails, the
root-calculation error is returned first instead). -/
theorem run_arity_guard {P : Type} (lib : ICS23 P) (op : CommitmentOp P)
    (args : List (List Nat)) (root : List Nat)
    (hcalc : lib.calculate op.Proof = Except.ok root)
    (hlen : 2 ≤ args.length) :
    CommitmentOp.Run lib op args =
      Except.error (RunError.badArity args.length) := by
  unfold CommitmentOp.Run
  rw [hcalc]
  cases args with
  | nil => simp at hlen
  | cons a tail =>
    cases tail with
    | nil => simp at hlen
    | cons b rest => rfl

/-- Witness for the amended C4 theorem. -/
theorem run_arity_guard_witness :
    CommitmentOp.Run libOk
      (CommitmentOp.mk ("ics23:simple") [1] ProofSpec.tendermint ())
      [[1], [2]] = Except.error (RunError.badArity 2) :=
  run_arity_guard libOk
    (CommitmentOp.mk ("ics23:simple") [1] ProofSpec.tendermint ())
    [[1], [2]] [7] rfl (by decide)

/-- The set of wire proof type tags actually used by this core. -/
def wireTypes : List String :=
  [ProofOpIAVLCommitment, ProofOpSimpleMerkleCommitment, ProofOpSMTCommitment]

/-- C3 counterexample: the envelope produced by
`NewSimpleMerkleCommitmentOp(...).ProofOp()` carries the type string
`"ics23:simple"`, which is not in the claimed set
`{"commitment:iavl", "commitment:simple", "commitment:smt"}`. -/
theorem proofOp_type_tags_counterexample :
    ((NewSimpleMerkleCommitmentOp (P := Unit) [1] ()).ProofOp
        (fun _ => [])).ptype = "ics23:simple" ∧
    "ics23:simple" ∉
      (["commitment:iavl", "commitment:simple", "commitment:smt"] :
        List String) :=
  ⟨rfl, by decide⟩

/-- C3 (amended): every wire proof envelope produced by this core — by
`ProofOp()` on an operator built by one of the three constructors, or by
a successful `ProofOpFromMap` — carries a type string drawn from
`{"ics23:iavl", "ics23:simple", "ics23:smt"}`. -/
theorem proofOp_type_tags {P : Type} (mars : P → List Nat)
    (key : List Nat) (proof : P) (H : List Nat → List Nat)
    (conv : List (Bool × List Nat) → List Nat → List Nat →
      Except String SimpleExistenceProof)
    (marsS : SimpleExistenceProof → List Nat)
    (cmap : List (List Nat × List Nat)) (storeName : List Nat)
    (env : ProofOpEnvelope)
    (hmap : ProofOpFromMap H conv marsS cmap storeName = Except.ok env) :
    ((NewIAVLCommitmentOp key proof).ProofOp mars).ptype ∈ wireTypes ∧
    ((NewSimpleMerkleCommitmentOp key proof).ProofOp mars).ptype ∈
      wireTypes ∧
    ((NewSMTCommitmentOp key proof).ProofOp mars).ptype ∈ wireTypes ∧
    env.ptype ∈ wireTypes := by
  refine ⟨?_, ?_, ?_, ?_⟩
  · simp [CommitmentOp.ProofOp, NewIAVLCommitmentOp, wireTypes]
  · simp [CommitmentOp.ProofOp, NewSimpleMerkleCommitmentOp, wireTypes]
  · simp [CommitmentOp.ProofOp, NewSMTCommitmentOp, wireTypes]
  · simp only [ProofOpFromMap] at hmap
    cases hlook : ((ProofsFromMap H cmap).2).lookup storeName with
    | none => rw [hlook] at hmap; exact absurd hmap (by simp)
    | some proof' =>
      rw [hlook] at hmap
      simp only [] at hmap
      cases hconv : conv proof' storeName ((cmap.lookup storeName).getD [])
        with
      | error e => rw [hconv] at hmap; exact absurd hmap (by simp)
      | ok ex =>
        rw [hconv] at hmap
        simp only [Except.ok.injEq] at hmap
        rw [← hmap]
        simp [CommitmentOp.ProofOp, NewSimpleMerkleCommitmentOp, wireTypes]

/-- Witness for the amended C3 theorem, with a successful map proof for
the singleton map `{[97] ↦ [5]}`. -/
theorem proofOp_type_tags_witness :
    ((NewIAVLCommitmentOp (P := Unit) [1] ()).ProofOp
        (fun _ => [])).ptype ∈ wireTypes ∧
    ((NewSimpleMerkleCommitmentOp (P := Unit) [1] ()).ProofOp
        (fun _ => [])).ptype ∈ wireTypes ∧
    ((NewSMTCommitmentOp (P := Unit) [1] ()).ProofOp
        (fun _ => [])).ptype ∈ wireTypes ∧
    (ProofOpEnvelope.mk ("ics23:simple") [97] []).ptype ∈ wireTypes :=
  proofOp_type_tags (fun _ => []) [1] () Hid
    (fun _ _ _ => Except.ok (SimpleExistenceProof.mk [] [] []))
    (fun _ => []) [([97], [5])] [97]
    (ProofOpEnvelope.mk ("ics23:simple") [97] []) rfl

/-! ## Unknown store name (C7) -/

theorem lookup_eq_none_of_not_mem {β : Type} (name : List Nat) :
    ∀ (l : List (List Nat × β)), name ∉ l.map Prod.fst →
      l.lookup name = none := by
  intro l
  induction l with
  | nil => intro _; rfl
  | cons p rest ih =>
    intro h
    simp only [List.map_cons, List.mem_cons] at h
    push_neg at h
    obtain ⟨h1, h2⟩ := h
    have hne : (name == p.1) = false := beq_eq_false_iff_ne.mpr h1
    simp [List.lookup, hne, ih h2]

theorem proofsFromMap_keys (H : List Nat → List Nat)
    (cmap : List (List Nat × List Nat)) :
    ((ProofsFromMap H cmap).2).map Prod.fst =
      (List.insertionSort pairLe cmap).map Prod.fst := by
  unfold ProofsFromMap
  simp only [List.map_map]
  have : ((List.insertionSort pairLe cmap).enum.map
      (fun p => p.2.1)) =
      ((List.insertionSort pairLe cmap).enum.map Prod.snd).map Prod.fst := by
    rw [List.map_map]
    rfl
  calc ((List.insertionSort pairLe cmap).enum.map _) =
      ((List.insertionSort pairLe cmap).enum.map Prod.snd).map Prod.fst :=
        this
    _ = (List.insertionSort pairLe cmap).map Prod.fst := by
        rw [List.enum_map_snd]

/-- C7: `ProofOpFromMap` fails with the unknown-store-name error
whenever the requested name is not a key of the map, whatever the
conversion and serialization functions do. -/
theorem proofOpFromMap_unknown_name (H : List Nat → List Nat)
    (conv : List (Bool × List Nat) → List Nat → List Nat →
      Except String SimpleExistenceProof)
    (marsS : SimpleExistenceProof → List Nat)
    (cmap : List (List Nat × List Nat)) (storeName : List Nat)
    (h : storeName ∉ cmap.map Prod.fst) :
    ProofOpFromMap H conv marsS cmap storeName =
      Except.error (MapProofError.unknownStore storeName) := by
  have hmem : storeName ∉ ((ProofsFromMap H cmap).2).map Prod.fst := by
    rw [proofsFromMap_keys]
    intro hc
    exact h (((List.perm_insertionSort pairLe cmap).map Prod.fst).mem_iff.mp hc)
  have hnone := lookup_eq_none_of_not_mem storeName _ hmem
  simp only [ProofOpFromMap]
  rw [hnone]

/-- Witness for the C7 theorem: requesting `"c"` (byte `[99]`) from the
two-entry map `{"a" ↦ Ha, "b" ↦ Hb}` fails with the
unknown-store-name error. -/
theorem proofOpFromMap_unknown_name_witness :
    ProofOpFromMap Hid
      (fun _ _ _ => Except.ok (SimpleExistenceProof.mk [] [] []))
      (fun _ => []) [([97], [5]), ([98], [6])] [99] =
      Except.error (MapProofError.unknownStore [99]) :=
  proofOpFromMap_unknown_name Hid
    (fun _ _ _ => Except.ok (SimpleExistenceProof.mk [] [] []))
    (fun _ => []) [([97], [5]), ([98], [6])] [99] (by decide)
